import Mathlib

/-!
Verification of the filename sequencing and temporal bucketing engine of the
`pics` photo-organization tool (`src/pics/cli.py`).

The Python code is shallowly embedded: filenames are Lean `String`s whose
character lists are manipulated directly, `pathlib.Path.stem`/`suffix` are
modelled by `splitName`, the regex `re.findall(r"\d+", s)` by `digitRuns`,
Python's stable `list.sort` by `List.insertionSort`, Python `dict` insertion
by `dictInsert`, and `datetime` by a record of calendar fields together with
the proleptic-Gregorian ordinal used by `date.toordinal()`.
-/

/-- Numeric value of a decimal digit character (used to model `int(s)`). -/
def digitVal (c : Char) : Nat := c.toNat - 48

/-- Value of a decimal digit string, as Python `int(s)` computes it for a
string of digits (leading zeros contribute nothing). -/
def digitsToNat (ds : List Char) : Nat := ds.foldl (fun a c => 10 * a + digitVal c) 0

/-- The decimal digit character for `d < 10` (models one digit of `"%d"`). -/
def digitChar10 (d : Nat) : Char :=
  match d with
  | 0 => '0' | 1 => '1' | 2 => '2' | 3 => '3' | 4 => '4'
  | 5 => '5' | 6 => '6' | 7 => '7' | 8 => '8' | _ => '9'

/-- Fueled helper for `toDecimal` (structural recursion so that concrete
values compute by `decide`). -/
def toDecimalAux (fuel : Nat) (n : Nat) : List Char :=
  match fuel with
  | 0 => []
  | fuel + 1 =>
    if n < 10 then [digitChar10 n]
    else toDecimalAux fuel (n / 10) ++ [digitChar10 (n % 10)]

/-- Decimal representation of a natural number, most significant digit first
(models Python `str(i)` / the `d` conversion). -/
def toDecimal (n : Nat) : List Char := toDecimalAux (n + 1) n

/-- Zero-padding to width four: models the Python format `f"{i:04d}"`. -/
def pad4 (n : Nat) : List Char :=
  List.replicate (4 - (toDecimal n).length) '0' ++ toDecimal n

/-- `pathlib` stem/suffix split of a bare filename.  CPython splits `name` at
the last `'.'` at index `i` provided `0 < i < len(name) - 1`; otherwise the
stem is the whole name and the suffix is empty. -/
def splitName (name : List Char) : List Char × List Char :=
  let r := name.reverse
  let t := r.takeWhile (fun c => c ≠ '.')
  match r.dropWhile (fun c => c ≠ '.') with
  | [] => (name, [])
  | _ :: us =>
    if us ≠ [] ∧ t ≠ [] then (us.reverse, '.' :: t.reverse) else (name, [])

/-- `Path(name).stem` for a bare filename. -/
def stemChars (name : List Char) : List Char := (splitName name).1

/-- `Path(name).suffix` for a bare filename. -/
def suffixChars (name : List Char) : List Char := (splitName name).2

/-- `re.findall(r"\d+", s)`: the list of maximal runs of decimal digits,
in order of occurrence.  (Structurally recursive; `digitRuns_cons_digit`
below recovers the usual takeWhile/dropWhile unfolding.) -/
def digitRuns : List Char → List (List Char)
  | [] => []
  | [c] => if c.isDigit then [[c]] else []
  | c :: d :: cs =>
    let rs := digitRuns (d :: cs)
    if c.isDigit then
      if d.isDigit then
        match rs with
        | r :: rest => (c :: r) :: rest
        | [] => [[c]]
      else [c] :: rs
    else rs

/--
```python
def extract_number_from_filename(filename: str) -> Optional[int]:
    name_without_ext = Path(filename).stem
    numbers = re.findall(r"\d+", name_without_ext)
    if numbers:
        return int(numbers[-1])
    return None
```
-/
def extract_number_from_filename (filename : String) : Option Nat :=
  let name_without_ext := stemChars filename.data
  match (digitRuns name_without_ext).getLast? with
  | some run => some (digitsToNat run)
  | none => none

example : extract_number_from_filename "IMG_1234.jpg" = some 1234 := by decide
example : extract_number_from_filename "DSC05678.CR3" = some 5678 := by decide
example : extract_number_from_filename "A12_B034.png" = some 34 := by decide
example : extract_number_from_filename "IMG_0007.jpg" = some 7 := by decide
example : extract_number_from_filename "cover.jpg" = none := by decide
example : pad4 7 = "0007".data := by decide
example : pad4 12345 = "12345".data := by decide

/-! ### Properties of `digitRuns` -/

theorem digitRuns_cons_nondigit {c : Char} (h : ¬ c.isDigit) (cs : List Char) :
    digitRuns (c :: cs) = digitRuns cs := by
  cases cs <;> simp [digitRuns, h]

theorem digitRuns_cons_digit {c : Char} (h : c.isDigit) (cs : List Char) :
    digitRuns (c :: cs) =
      (c :: cs.takeWhile Char.isDigit) :: digitRuns (cs.dropWhile Char.isDigit) := by
  induction cs generalizing c with
  | nil => simp [digitRuns, h]
  | cons d cs ih =>
    by_cases hd : d.isDigit
    · simp only [digitRuns, h, if_true, hd, ih hd, List.takeWhile_cons_of_pos,
        List.dropWhile_cons_of_pos]
    · rw [List.takeWhile_cons_of_neg hd, List.dropWhile_cons_of_neg hd]
      simp only [digitRuns, h, if_true, hd, if_false, Bool.false_eq_true]

theorem digitRuns_eq_nil {s : List Char} (h : ∀ c ∈ s, ¬ c.isDigit) : digitRuns s = [] := by
  induction s with
  | nil => rfl
  | cons c cs ih =>
    rw [digitRuns_cons_nondigit (h c (List.mem_cons_self c cs))]
    exact ih fun x hx => h x (List.mem_cons_of_mem c hx)

theorem digitRuns_all_digit {s : List Char} (hne : s ≠ []) (h : ∀ c ∈ s, c.isDigit) :
    digitRuns s = [s] := by
  cases s with
  | nil => exact absurd rfl hne
  | cons c cs =>
    rw [digitRuns_cons_digit (h c (List.mem_cons_self c cs)),
      List.takeWhile_eq_self_iff.mpr fun x hx => h x (List.mem_cons_of_mem c hx),
      List.dropWhile_eq_nil_iff.mpr fun x hx => h x (List.mem_cons_of_mem c hx)]
    rfl

theorem digitRuns_eq_nil_iff {s : List Char} :
    digitRuns s = [] ↔ ∀ c ∈ s, ¬ c.isDigit := by
  constructor
  · intro h c hcs
    induction s with
    | nil => cases hcs
    | cons d cs ih =>
      by_cases hd : d.isDigit
      · rw [digitRuns_cons_digit hd] at h; cases h
      · rw [digitRuns_cons_nondigit hd] at h
        rcases List.mem_cons.mp hcs with rfl | hmem
        · exact hd
        · exact ih h hmem
  · exact digitRuns_eq_nil

theorem digitRuns_append_nondigit_aux (n : Nat) :
    ∀ (a : List Char) {x : Char} (b : List Char), a.length ≤ n → ¬ x.isDigit →
      digitRuns (a ++ x :: b) = digitRuns a ++ digitRuns b := by
  induction n with
  | zero =>
    intro a x b hlen hx
    have ha : a = [] := List.length_eq_zero.mp (Nat.le_zero.mp hlen)
    subst ha
    rw [List.nil_append, digitRuns_cons_nondigit hx]
    rfl
  | succ n ih =>
    intro a x b hlen hx
    match a with
    | [] =>
      rw [List.nil_append, digitRuns_cons_nondigit hx]
      rfl
    | c :: a' =>
      have hlen' : a'.length ≤ n := Nat.le_of_succ_le_succ (by simpa using hlen)
      by_cases hc : c.isDigit
      · rw [List.cons_append, digitRuns_cons_digit hc, digitRuns_cons_digit hc]
        by_cases hall : ∀ y ∈ a', y.isDigit
        · rw [List.takeWhile_append_of_pos hall, List.dropWhile_append_of_pos hall,
            List.takeWhile_cons_of_neg hx, List.dropWhile_cons_of_neg hx,
            List.takeWhile_eq_self_iff.mpr hall, List.dropWhile_eq_nil_iff.mpr hall,
            digitRuns_cons_nondigit hx]
          simp [digitRuns]
        · have hdw : ¬ (a'.dropWhile Char.isDigit).isEmpty = true := by
            rw [List.isEmpty_iff, List.dropWhile_eq_nil_iff]
            exact hall
          have htw : ¬ (a'.takeWhile Char.isDigit).length = a'.length := by
            intro hcontra
            have heq : a'.takeWhile Char.isDigit = a' :=
              (List.takeWhile_sublist _).eq_of_length hcontra
            exact hall fun y hy => List.mem_takeWhile_imp (heq ▸ hy)
          rw [List.takeWhile_append, if_neg htw, List.dropWhile_append, if_neg hdw,
            ih (a'.dropWhile Char.isDigit) b
              (le_trans (List.Sublist.length_le (List.dropWhile_sublist _)) hlen') hx]
          simp
      · rw [List.cons_append, digitRuns_cons_nondigit hc, digitRuns_cons_nondigit hc]
        exact ih a' b hlen' hx

theorem digitRuns_append_nondigit {x : Char} (hx : ¬ x.isDigit) (a b : List Char) :
    digitRuns (a ++ x :: b) = digitRuns a ++ digitRuns b :=
  digitRuns_append_nondigit_aux a.length a b le_rfl hx

/-- Core characterization used by claim C1: when the scanned string contains a
digit, the last element of `digitRuns` is the final maximal digit run, in the
sense that the string decomposes as `a ++ run ++ b` with `run` a nonempty
all-digit block, nothing after it containing a digit, and the character just
before it (if any) a non-digit. -/
theorem digitRuns_last_decomp_aux (n : Nat) :
    ∀ s : List Char, s.length ≤ n → s.any Char.isDigit = true →
      ∃ a run b, (digitRuns s).getLast? = some run ∧ s = a ++ run ++ b ∧ run ≠ [] ∧
        (∀ c ∈ run, c.isDigit) ∧ (∀ c ∈ b, ¬ c.isDigit) ∧
        (∀ c ∈ a.getLast?, ¬ c.isDigit) := by
  induction n with
  | zero =>
    intro s hlen hany
    have : s = [] := List.length_eq_zero.mp (Nat.le_zero.mp hlen)
    subst this
    cases hany
  | succ n ih =>
    intro s hlen hany
    match s with
    | [] => cases hany
    | c :: cs =>
      have hlen' : cs.length ≤ n := Nat.le_of_succ_le_succ (by simpa using hlen)
      by_cases hc : c.isDigit
      · rw [digitRuns_cons_digit hc]
        set tw := cs.takeWhile Char.isDigit with htw
        set dw := cs.dropWhile Char.isDigit with hdw
        have hsplit : tw ++ dw = cs := List.takeWhile_append_dropWhile _ _
        cases hdr : digitRuns dw with
        | nil =>
          refine ⟨[], c :: tw, dw, ?_, ?_, by simp, ?_, ?_, by simp⟩
          · simp
          · simp [← hsplit]
          · intro x hx
            rcases List.mem_cons.mp hx with rfl | hmem
            · exact hc
            · exact List.mem_takeWhile_imp hmem
          · exact digitRuns_eq_nil_iff.mp hdr
        | cons r rest =>
          have hdwne : digitRuns dw ≠ [] := by rw [hdr]; simp
          have hdwany : dw.any Char.isDigit = true := by
            by_contra hno
            refine hdwne (digitRuns_eq_nil fun x hx hdig => hno ?_)
            exact List.any_eq_true.mpr ⟨x, hx, hdig⟩
          have hdwlen : dw.length ≤ n :=
            le_trans (List.Sublist.length_le (List.dropWhile_sublist _)) hlen'
          obtain ⟨a', run, b, hlast, hdweq, hrunne, hrundig, hbnd, hand⟩ :=
            ih dw hdwlen hdwany
          have ha'ne : a' ≠ [] := by
            intro ha'
            subst ha'
            have hhead := List.head?_dropWhile_not Char.isDigit cs
            rw [← hdw] at hhead
            rw [List.nil_append] at hdweq
            match run, hrunne, hdweq with
            | rh :: rt, _, hdweq =>
              have hh : dw.head? = some rh := by rw [hdweq]; rfl
              rw [hh] at hhead
              exact absurd (hrundig rh (List.mem_cons_self _ _)) (by simp [hhead])
          refine ⟨(c :: tw) ++ a', run, b, ?_, ?_, hrunne, hrundig, hbnd, ?_⟩
          · rw [hdr] at hlast
            rw [List.getLast?_cons_cons]
            exact hlast
          · have hcc : c :: cs = (c :: tw) ++ dw := by rw [← hsplit]; rfl
            rw [hcc, hdweq]
            simp
          · have : ((c :: tw) ++ a').getLast? = a'.getLast? := by
              rw [List.getLast?_append]
              cases hgl : a'.getLast? with
              | none => exact absurd (List.getLast?_eq_none_iff.mp hgl) ha'ne
              | some y => rfl
            rw [this]
            exact hand
      · rw [digitRuns_cons_nondigit hc]
        have hcsany : cs.any Char.isDigit = true := by
          rcases List.any_eq_true.mp hany with ⟨x, hx, hdig⟩
          rcases List.mem_cons.mp hx with rfl | hmem
          · exact absurd hdig hc
          · exact List.any_eq_true.mpr ⟨x, hmem, hdig⟩
        obtain ⟨a, run, b, hlast, hcseq, hrunne, hrundig, hbnd, hand⟩ :=
          ih cs hlen' hcsany
        refine ⟨c :: a, run, b, hlast, by simp [hcseq], hrunne,
          hrundig, hbnd, ?_⟩
        cases ha : a with
        | nil =>
          subst ha
          intro y hy
          have hcy : c = y := by simpa using hy
          subst hcy
          exact hc
        | cons z zs =>
          rw [List.getLast?_cons_cons]
          rw [ha] at hand
          exact hand

/-- C1. For every filename whose stem (extension stripped) contains at least
one maximal run of decimal digits, `extract_number_from_filename` returns the
integer value of the last such run (witnessed by a decomposition
`stem = a ++ run ++ b` where `run` is a nonempty digit block, no digit occurs
after it, and the character before it, if any, is not a digit); for every
filename whose stem contains no digit, it returns `none`.  Leading zeros
parse as their integer value (`IMG_0007` yields 7) and `A12_B034.png`
yields 34. -/
theorem extract_sequence_key_correct (filename : String) :
    ((stemChars filename.data).any Char.isDigit = true →
      ∃ a run b, stemChars filename.data = a ++ run ++ b ∧ run ≠ [] ∧
        (∀ c ∈ run, c.isDigit) ∧ (∀ c ∈ b, ¬ c.isDigit) ∧
        (∀ c ∈ a.getLast?, ¬ c.isDigit) ∧
        extract_number_from_filename filename = some (digitsToNat run)) ∧
    ((stemChars filename.data).any Char.isDigit = false →
      extract_number_from_filename filename = none) ∧
    extract_number_from_filename "A12_B034.png" = some 34 ∧
    extract_number_from_filename "IMG_0007.jpg" = some 7 ∧
    extract_number_from_filename "cover.jpg" = none := by
  refine ⟨?_, ?_, by decide, by decide, by decide⟩
  · intro hany
    obtain ⟨a, run, b, hlast, heq, hrunne, hrundig, hbnd, hand⟩ :=
      digitRuns_last_decomp_aux (stemChars filename.data).length
        (stemChars filename.data) le_rfl hany
    refine ⟨a, run, b, heq, hrunne, hrundig, hbnd, hand, ?_⟩
    show (match (digitRuns (stemChars filename.data)).getLast? with
      | some run => some (digitsToNat run)
      | none => none) = some (digitsToNat run)
    rw [hlast]
  · intro hnone
    have hall : ∀ c ∈ stemChars filename.data, ¬ c.isDigit := by
      intro c hc hdig
      have hco : (stemChars filename.data).any Char.isDigit = true :=
        List.any_eq_true.mpr ⟨c, hc, hdig⟩
      rw [hnone] at hco
      cases hco
    show (match (digitRuns (stemChars filename.data)).getLast? with
      | some run => some (digitsToNat run)
      | none => none) = none
    rw [digitRuns_eq_nil hall]
    rfl

/-- Witness for C1 at the spec's own example `"A12_B034.png"`. -/
theorem extract_sequence_key_correct_witness :
    ∃ a run b, stemChars ("A12_B034.png" : String).data = a ++ run ++ b ∧ run ≠ [] ∧
      (∀ c ∈ run, c.isDigit) ∧ (∀ c ∈ b, ¬ c.isDigit) ∧
      (∀ c ∈ a.getLast?, ¬ c.isDigit) ∧
      extract_number_from_filename "A12_B034.png" = some (digitsToNat run) :=
  (extract_sequence_key_correct "A12_B034.png").1 (by decide)

/-! ### The rename-mapping builder (`create_filename_mapping`) -/

/-- A file reference: the containing directory plus the bare filename.
Two `PFile`s are the same Python `Path` iff both components agree. -/
structure PFile where
  dir : String
  name : String
deriving DecidableEq

/-- `str.lower()` restricted to the characters that occur in filenames
(ASCII case folding, as `Char.toLower` performs). -/
def lowerChars (s : List Char) : List Char := s.map Char.toLower

/-- The sort key used by `file_numbers.sort(key=lambda x: x[1])`: an extracted
number, or `float("inf")` — modelled as `none` — when no number was found.
`keyLE` is the comparison of two such keys, with `none` greater than
everything. -/
def keyLE : Option Nat → Option Nat → Prop
  | some m, some n => m ≤ n
  | some _, none => True
  | none, none => True
  | none, some _ => False

instance : DecidableRel keyLE
  | some m, some n => inferInstanceAs (Decidable (m ≤ n))
  | some _, none => inferInstanceAs (Decidable True)
  | none, none => inferInstanceAs (Decidable True)
  | none, some _ => inferInstanceAs (Decidable False)

/-- The relation the Python stable sort uses on `(file, number)` pairs. -/
def fileLE (a b : PFile × Option Nat) : Prop := keyLE a.2 b.2

instance : DecidableRel fileLE := fun a b => inferInstanceAs (Decidable (keyLE a.2 b.2))

instance : IsTotal (PFile × Option Nat) fileLE :=
  ⟨fun a b => by
    rcases a with ⟨_, _ | m⟩ <;> rcases b with ⟨_, _ | n⟩ <;>
      simp [fileLE, keyLE, Nat.le_total]⟩

instance : IsTrans (PFile × Option Nat) fileLE :=
  ⟨fun a b c hab hbc => by
    rcases a with ⟨_, _ | m⟩ <;> rcases b with ⟨_, _ | n⟩ <;> rcases c with ⟨_, _ | k⟩ <;>
      simp_all [fileLE, keyLE] <;> try omega⟩

/-- Python `dict` assignment `m[k] = v`: if the key is present its value is
updated in place (the key keeps its insertion position), otherwise the pair
is appended. -/
def dictInsert (m : List (PFile × String)) (k : PFile) (v : String) :
    List (PFile × String) :=
  if m.any (fun p => p.1 == k) then
    m.map (fun p => if p.1 == k then (k, v) else p)
  else m ++ [(k, v)]

/-- The new filename for the file at 1-based index `i`:
`f"{prefix}-{i:04d}{file_path.suffix.lower()}"` when a truthy (non-empty)
prefix is supplied, otherwise `file_path.name` unchanged. -/
def newName (pfx : Option String) (i : Nat) (f : PFile) : String :=
  match pfx with
  | some p =>
    if p.data.isEmpty then f.name
    else ⟨p.data ++ '-' :: (pad4 i ++ lowerChars (suffixChars f.name.data))⟩
  | none => f.name

/--
```python
def create_filename_mapping(files, prefix=None):
    if not files:
        return {}
    file_numbers = []
    for file_path in files:
        number = extract_number_from_filename(file_path.name)
        file_numbers.append((file_path, number if number is not None else float("inf")))
    file_numbers.sort(key=lambda x: x[1])
    mapping = {}
    for i, (file_path, _) in enumerate(file_numbers, 1):
        if prefix:
            new_name = f"{prefix}-{i:04d}{file_path.suffix.lower()}"
        else:
            new_name = file_path.name
        mapping[file_path] = new_name
    return mapping
```
The dict is modelled as an insertion-ordered association list. -/
def create_filename_mapping (files : List PFile) (pfx : Option String) :
    List (PFile × String) :=
  if files.isEmpty then []
  else
    let file_numbers := files.map fun f => (f, extract_number_from_filename f.name)
    let sortedFN := List.insertionSort fileLE file_numbers
    (sortedFN.enumFrom 1).foldl
      (fun m p => dictInsert m p.2.1 (newName pfx p.1 p.2.1)) []

example :
    create_filename_mapping
      [⟨"d", "IMG_0050.jpg"⟩, ⟨"d", "IMG_0003.JPG"⟩, ⟨"d", "cover.jpg"⟩]
      (some "trip") =
    [(⟨"d", "IMG_0003.JPG"⟩, "trip-0001.jpg"),
     (⟨"d", "IMG_0050.jpg"⟩, "trip-0002.jpg"),
     (⟨"d", "cover.jpg"⟩, "trip-0003.jpg")] := by decide

example :
    create_filename_mapping [⟨"d", "IMG_0050.jpg"⟩, ⟨"d", "cover.jpg"⟩] none =
    [(⟨"d", "IMG_0050.jpg"⟩, "IMG_0050.jpg"), (⟨"d", "cover.jpg"⟩, "cover.jpg")] := by
  decide

/-! ### Stability of the sort used by `create_filename_mapping` -/

theorem keyLE_refl (k : Option Nat) : keyLE k k := by
  cases k <;> simp [keyLE]

theorem filter_orderedInsert_key_eq (x : PFile × Option Nat)
    (l : List (PFile × Option Nat)) (k : Option Nat) (hx : x.2 = k) :
    (List.orderedInsert fileLE x l).filter (fun p => p.2 == k) =
      x :: l.filter (fun p => p.2 == k) := by
  induction l with
  | nil =>
    simp [List.orderedInsert, List.filter, hx]
  | cons y l ih =>
    by_cases hxy : fileLE x y
    · rw [List.orderedInsert_of_le fileLE _ hxy]
      rw [List.filter_cons_of_pos (by simp [hx])]
    · have hne : (y.2 == k) = false := by
        rw [beq_eq_false_iff_ne]
        intro h
        exact hxy (show fileLE x y by rw [fileLE, hx, h]; exact keyLE_refl k)
      rw [show List.orderedInsert fileLE x (y :: l) =
          y :: List.orderedInsert fileLE x l by simp [List.orderedInsert, hxy],
        List.filter_cons_of_neg (by simp [hne]), ih,
        List.filter_cons_of_neg (by simp [hne])]

theorem filter_orderedInsert_key_ne (x : PFile × Option Nat)
    (l : List (PFile × Option Nat)) (k : Option Nat) (hx : x.2 ≠ k) :
    (List.orderedInsert fileLE x l).filter (fun p => p.2 == k) =
      l.filter (fun p => p.2 == k) := by
  rw [List.orderedInsert_eq_take_drop, List.filter_append,
    List.filter_cons_of_neg (by simp [hx]), ← List.filter_append,
    List.takeWhile_append_dropWhile]

/-- The sort is stable: within each key class the input order is preserved. -/
theorem insertionSort_filter_key (l : List (PFile × Option Nat)) (k : Option Nat) :
    (List.insertionSort fileLE l).filter (fun p => p.2 == k) =
      l.filter (fun p => p.2 == k) := by
  induction l with
  | nil => rfl
  | cons a l ih =>
    show (List.orderedInsert fileLE a (List.insertionSort fileLE l)).filter _ = _
    by_cases ha : a.2 = k
    · rw [filter_orderedInsert_key_eq a _ k ha, ih,
        List.filter_cons_of_pos (by simp [ha])]
    · rw [filter_orderedInsert_key_ne a _ k ha, ih,
        List.filter_cons_of_neg (by simp [ha])]

/-! ### From the dict fold to an explicit association list -/

/-- The sequence key of a file, as used for ordering. -/
def seqKey (f : PFile) : Option Nat := extract_number_from_filename f.name

/-- The sorted `(file, key)` list built by `create_filename_mapping`. -/
def sortedPairs (files : List PFile) : List (PFile × Option Nat) :=
  List.insertionSort fileLE (files.map fun f => (f, seqKey f))

/-- The mapping as an explicit association list in sorted order. -/
def mappingList (files : List PFile) (pfx : Option String) : List (PFile × String) :=
  ((sortedPairs files).enumFrom 1).map fun q => (q.2.1, newName pfx q.1 q.2.1)

theorem dictInsert_of_not_mem {m : List (PFile × String)} {k : PFile} {v : String}
    (h : ∀ p ∈ m, p.1 ≠ k) : dictInsert m k v = m ++ [(k, v)] := by
  rw [dictInsert, if_neg]
  simp only [List.any_eq_true, beq_iff_eq, not_exists, not_and]
  exact h

theorem foldl_dictInsert_eq_append (pfx : Option String) :
    ∀ (xs : List (Nat × (PFile × Option Nat))) (m : List (PFile × String)),
      (∀ q ∈ xs, ∀ p ∈ m, p.1 ≠ q.2.1) → (xs.map fun q => q.2.1).Nodup →
      xs.foldl (fun m p => dictInsert m p.2.1 (newName pfx p.1 p.2.1)) m =
        m ++ xs.map fun q => (q.2.1, newName pfx q.1 q.2.1) := by
  intro xs
  induction xs with
  | nil => intro m _ _; simp
  | cons q xs ih =>
    intro m hdisj hnd
    rw [List.foldl_cons,
      dictInsert_of_not_mem fun p hp => hdisj q (List.mem_cons_self _ _) p hp]
    rw [List.map_cons] at hnd
    have hnd' := List.Nodup.of_cons hnd
    have hq : q.2.1 ∉ xs.map fun q => q.2.1 := (List.nodup_cons.mp hnd).1
    rw [ih (m ++ [(q.2.1, newName pfx q.1 q.2.1)]) ?_ hnd']
    · simp
    · intro q' hq' p hp
      rcases List.mem_append.mp hp with hpm | hps
      · exact hdisj q' (List.mem_cons_of_mem _ hq') p hpm
      · have : p = (q.2.1, newName pfx q.1 q.2.1) := by simpa using hps
        subst this
        intro hcontra
        exact hq (hcontra ▸ List.mem_map_of_mem (fun q => q.2.1) hq')

/-- For duplicate-free input (a set of files, as the spec's data model
specifies), the dict built by `create_filename_mapping` is exactly the
association list `mappingList`. -/
theorem create_filename_mapping_eq (files : List PFile) (pfx : Option String)
    (hnd : files.Nodup) :
    create_filename_mapping files pfx = mappingList files pfx := by
  cases hfe : files.isEmpty
  · have hperm : List.Perm (sortedPairs files) (files.map fun f => (f, seqKey f)) :=
      List.perm_insertionSort fileLE _
    have hfstnd : ((sortedPairs files).map Prod.fst).Nodup := by
      refine ((hperm.map Prod.fst).nodup_iff).mpr ?_
      rw [List.map_map]
      have hid : (Prod.fst ∘ fun f : PFile => (f, seqKey f)) = id := rfl
      rw [hid, List.map_id]
      exact hnd
    have hkeysnd : (((sortedPairs files).enumFrom 1).map fun q => q.2.1).Nodup := by
      have : (((sortedPairs files).enumFrom 1).map fun q => q.2.1) =
          ((sortedPairs files).enumFrom 1).map (Prod.fst ∘ Prod.snd) := rfl
      rw [this, ← List.map_map, List.enumFrom_map_snd]
      exact hfstnd
    have hunfold : create_filename_mapping files pfx =
        ((sortedPairs files).enumFrom 1).foldl
          (fun m p => dictInsert m p.2.1 (newName pfx p.1 p.2.1)) [] := by
      rw [create_filename_mapping, if_neg (by simp [hfe])]
      rfl
    rw [hunfold, foldl_dictInsert_eq_append pfx _ [] (by simp) hkeysnd]
    rfl
  · rw [create_filename_mapping, if_pos (by rw [hfe]),
      mappingList, sortedPairs, List.isEmpty_iff.mp hfe]
    rfl

theorem sortedPairs_snd_eq_key {files : List PFile} :
    ∀ q ∈ sortedPairs files, q.2 = seqKey q.1 := by
  intro q hq
  have hmem : q ∈ files.map fun f => (f, seqKey f) :=
    (List.perm_insertionSort fileLE _).mem_iff.mp hq
  rcases List.mem_map.mp hmem with ⟨f, _, rfl⟩
  rfl

theorem sortedPairs_fst_perm (files : List PFile) :
    List.Perm ((sortedPairs files).map Prod.fst) files := by
  refine ((List.perm_insertionSort fileLE _).map Prod.fst).trans ?_
  rw [List.map_map]
  have hid : (Prod.fst ∘ fun f : PFile => (f, seqKey f)) = id := rfl
  rw [hid, List.map_id]

theorem mappingList_map_fst (files : List PFile) (pfx : Option String) :
    (mappingList files pfx).map Prod.fst = (sortedPairs files).map Prod.fst := by
  rw [mappingList, List.map_map]
  have h1 : (Prod.fst ∘ fun q : Nat × (PFile × Option Nat) =>
      (q.2.1, newName pfx q.1 q.2.1)) = Prod.fst ∘ Prod.snd := rfl
  rw [h1, ← List.map_map, List.enumFrom_map_snd]

theorem sortedPairs_sorted (files : List PFile) :
    List.Pairwise fileLE (sortedPairs files) :=
  List.sorted_insertionSort fileLE _

/-- C3. `build_rename_mapping` stable-sorts a duplicate-free file list by
sequence key (undefined keys after all defined keys, input order preserved
within each key class), assigns 1-based consecutive indices in that order,
and, for a truthy prefix, names the i-th file
`{prefix}-{i:04d}{lowercased original extension}`; with no prefix every file
maps to its own unchanged filename. -/
theorem build_rename_mapping_correct (files : List PFile) (p : String)
    (hnd : files.Nodup) (hp : p.data ≠ []) :
    ((create_filename_mapping files (some p)).map Prod.fst).Perm files ∧
    List.Pairwise (fun f g => keyLE (seqKey f) (seqKey g))
      ((create_filename_mapping files (some p)).map Prod.fst) ∧
    (∀ k : Option Nat,
      ((create_filename_mapping files (some p)).map Prod.fst).filter
          (fun f => seqKey f == k) =
        files.filter (fun f => seqKey f == k)) ∧
    (∀ i (h : i < (create_filename_mapping files (some p)).length),
      ((create_filename_mapping files (some p)).get ⟨i, h⟩).2 =
        ⟨p.data ++ '-' :: (pad4 (i + 1) ++
          lowerChars (suffixChars
            ((create_filename_mapping files (some p)).get ⟨i, h⟩).1.name.data))⟩) ∧
    (∀ pr ∈ create_filename_mapping files none, pr.2 = pr.1.name) := by
  rw [create_filename_mapping_eq files (some p) hnd,
    create_filename_mapping_eq files none hnd]
  refine ⟨?_, ?_, ?_, ?_, ?_⟩
  · rw [mappingList_map_fst]
    exact sortedPairs_fst_perm files
  · rw [mappingList_map_fst]
    rw [List.pairwise_map]
    refine (sortedPairs_sorted files).imp_of_mem ?_
    intro a b ha hb hab
    have h2a := sortedPairs_snd_eq_key a ha
    have h2b := sortedPairs_snd_eq_key b hb
    rw [fileLE, h2a, h2b] at hab
    exact hab
  · intro k
    rw [mappingList_map_fst]
    have hchain :
        ((sortedPairs files).map Prod.fst).filter (fun f => seqKey f == k) =
          ((sortedPairs files).filter (fun q => q.2 == k)).map Prod.fst := by
      rw [List.filter_map]
      congr 1
      apply List.filter_congr
      intro q hq
      show (seqKey q.1 == k) = (q.2 == k)
      rw [sortedPairs_snd_eq_key q hq]
    rw [hchain, sortedPairs, insertionSort_filter_key, List.filter_map, List.map_map]
    have h1 : ((fun q : PFile × Option Nat => q.2 == k) ∘ fun f => (f, seqKey f)) =
        fun f => seqKey f == k := rfl
    have h2 : (Prod.fst ∘ fun f : PFile => (f, seqKey f)) = id := rfl
    rw [h1, h2, List.map_id]
  · intro i h
    simp only [mappingList] at h ⊢
    simp only [List.get_eq_getElem, List.getElem_map, List.getElem_enumFrom]
    simp only [newName]
    rw [if_neg (by simpa [List.isEmpty_iff] using hp), Nat.add_comm 1 i]
  · intro pr hpr
    rw [mappingList] at hpr
    rcases List.mem_map.mp hpr with ⟨q, _, rfl⟩
    rfl

/-- Witness for C3: the spec's own example — prefix `"trip"`, three files
with keys `[50, 3, undefined]` in input order — plus instantiation of each
quantified conjunct at that input. -/
theorem build_rename_mapping_correct_witness :
    (([⟨"d", "IMG_0050.jpg"⟩, ⟨"d", "IMG_0003.JPG"⟩, ⟨"d", "cover.jpg"⟩] :
        List PFile).Nodup ∧ ("trip" : String).data ≠ []) ∧
    ((create_filename_mapping
        [⟨"d", "IMG_0050.jpg"⟩, ⟨"d", "IMG_0003.JPG"⟩, ⟨"d", "cover.jpg"⟩]
        (some "trip")).map Prod.fst).Perm
      [⟨"d", "IMG_0050.jpg"⟩, ⟨"d", "IMG_0003.JPG"⟩, ⟨"d", "cover.jpg"⟩] ∧
    ((create_filename_mapping
        [⟨"d", "IMG_0050.jpg"⟩, ⟨"d", "IMG_0003.JPG"⟩, ⟨"d", "cover.jpg"⟩]
        (some "trip")).map Prod.snd) =
      ["trip-0001.jpg", "trip-0002.jpg", "trip-0003.jpg"] := by
  refine ⟨⟨by decide, by decide⟩, ?_, by decide⟩
  exact (build_rename_mapping_correct
    [⟨"d", "IMG_0050.jpg"⟩, ⟨"d", "IMG_0003.JPG"⟩, ⟨"d", "cover.jpg"⟩]
    "trip" (by decide) (by decide)).1

/-! ### Decimal formatting and case-folding facts -/

theorem toDecimalAux_fuel_irrel :
    ∀ (fuel fuel' n : Nat), n < fuel → n < fuel' →
      toDecimalAux fuel n = toDecimalAux fuel' n := by
  intro fuel
  induction fuel with
  | zero => intro fuel' n h; omega
  | succ fuel ih =>
    intro fuel' n h h'
    match fuel', h' with
    | fuel' + 1, h' =>
      show (if n < 10 then _ else _) = (if n < 10 then _ else _)
      by_cases h10 : n < 10
      · rw [if_pos h10, if_pos h10]
      · rw [if_neg h10, if_neg h10,
          ih fuel' (n / 10) (by omega) (by omega)]

theorem toDecimal_eq_ite (n : Nat) :
    toDecimal n =
      if n < 10 then [digitChar10 n]
      else toDecimal (n / 10) ++ [digitChar10 (n % 10)] := by
  show toDecimalAux (n + 1) n = _
  show (if n < 10 then _ else toDecimalAux n (n / 10) ++ _) = _
  by_cases h10 : n < 10
  · rw [if_pos h10, if_pos h10]
  · rw [if_neg h10, if_neg h10,
      toDecimalAux_fuel_irrel n (n / 10 + 1) (n / 10) (by omega) (by omega)]
    rfl

theorem digitChar10_isDigit (d : Nat) : (digitChar10 d).isDigit = true := by
  unfold digitChar10
  split <;> decide

theorem digitVal_digitChar10 : ∀ d < 10, digitVal (digitChar10 d) = d := by decide

theorem toDecimal_ne_nil (n : Nat) : toDecimal n ≠ [] := by
  rw [toDecimal_eq_ite]
  by_cases h10 : n < 10
  · rw [if_pos h10]; simp
  · rw [if_neg h10]; simp

theorem toDecimal_all_digit (n : Nat) : ∀ c ∈ toDecimal n, c.isDigit = true := by
  induction n using Nat.strong_induction_on with
  | _ n ih =>
    rw [toDecimal_eq_ite]
    by_cases h10 : n < 10
    · rw [if_pos h10]
      intro c hc
      have : c = digitChar10 n := by simpa using hc
      subst this
      exact digitChar10_isDigit n
    · rw [if_neg h10]
      intro c hc
      rcases List.mem_append.mp hc with hc1 | hc2
      · exact ih (n / 10) (by omega) c hc1
      · have : c = digitChar10 (n % 10) := by simpa using hc2
        subst this
        exact digitChar10_isDigit (n % 10)

theorem digitsToNat_append_singleton (l : List Char) (c : Char) :
    digitsToNat (l ++ [c]) = 10 * digitsToNat l + digitVal c := by
  rw [digitsToNat, digitsToNat, List.foldl_append]
  rfl

theorem digitsToNat_toDecimal (n : Nat) : digitsToNat (toDecimal n) = n := by
  induction n using Nat.strong_induction_on with
  | _ n ih =>
    rw [toDecimal_eq_ite]
    by_cases h10 : n < 10
    · rw [if_pos h10]
      show 10 * 0 + digitVal (digitChar10 n) = n
      rw [digitVal_digitChar10 n h10]
      omega
    · rw [if_neg h10, digitsToNat_append_singleton, ih (n / 10) (by omega),
        digitVal_digitChar10 (n % 10) (by omega)]
      omega

theorem digitsToNat_replicate_zero (k : Nat) (l : List Char) :
    digitsToNat (List.replicate k '0' ++ l) = digitsToNat l := by
  induction k with
  | zero => rfl
  | succ k ih =>
    rw [List.replicate_succ, List.cons_append]
    show digitsToNat (List.replicate k '0' ++ l) = _
    exact ih

theorem pad4_all_digit (n : Nat) : ∀ c ∈ pad4 n, c.isDigit = true := by
  intro c hc
  rcases List.mem_append.mp hc with hc1 | hc2
  · have : c = '0' := List.eq_of_mem_replicate hc1
    subst this
    decide
  · exact toDecimal_all_digit n c hc2

theorem digitsToNat_pad4 (n : Nat) : digitsToNat (pad4 n) = n := by
  rw [pad4, digitsToNat_replicate_zero, digitsToNat_toDecimal]

theorem pad4_ne_nil (n : Nat) : pad4 n ≠ [] := by
  rw [pad4]
  intro h
  exact toDecimal_ne_nil n (List.append_eq_nil.mp h).2

theorem pad4_inj {m n : Nat} (h : pad4 m = pad4 n) : m = n := by
  have := congrArg digitsToNat h
  rwa [digitsToNat_pad4, digitsToNat_pad4] at this

theorem char_toNat_ofNat {n : Nat} (h : n < 55296) : (Char.ofNat n).toNat = n := by
  rw [Char.ofNat, dif_pos (Or.inl h)]
  rfl

theorem toLower_eq_of_upper {c : Char} (h : 65 ≤ c.toNat ∧ c.toNat ≤ 90) :
    Char.toLower c = Char.ofNat (c.toNat + 32) := by
  rw [Char.toLower, if_pos h]

theorem toLower_eq_self {c : Char} (h : ¬ (65 ≤ c.toNat ∧ c.toNat ≤ 90)) :
    Char.toLower c = c := by
  rw [Char.toLower, if_neg h]

theorem toLower_toNat_upper {c : Char} (h : 65 ≤ c.toNat ∧ c.toNat ≤ 90) :
    (Char.toLower c).toNat = c.toNat + 32 := by
  rw [toLower_eq_of_upper h, char_toNat_ofNat (by omega)]

theorem toLower_ne_dot {c : Char} (h : c ≠ '.') : Char.toLower c ≠ '.' := by
  by_cases hu : 65 ≤ c.toNat ∧ c.toNat ≤ 90
  · intro hcontra
    have h1 := congrArg Char.toNat hcontra
    rw [toLower_toNat_upper hu] at h1
    have h2 : ('.' : Char).toNat = 46 := rfl
    omega
  · rw [toLower_eq_self hu]
    exact h

theorem toLower_idem (c : Char) : Char.toLower (Char.toLower c) = Char.toLower c := by
  by_cases hu : 65 ≤ c.toNat ∧ c.toNat ≤ 90
  · have h1 : (Char.toLower c).toNat = c.toNat + 32 := toLower_toNat_upper hu
    apply toLower_eq_self
    rw [h1]
    omega
  · rw [toLower_eq_self hu, toLower_eq_self hu]

theorem lowerChars_idem (s : List Char) : lowerChars (lowerChars s) = lowerChars s := by
  rw [lowerChars, lowerChars, List.map_map]
  apply List.map_congr_left
  intro c _
  exact toLower_idem c

/-- The Python suffix of a filename is empty, or a dot followed by a
nonempty dot-free tail. -/
theorem suffixChars_shape (name : List Char) :
    suffixChars name = [] ∨
      ∃ t, suffixChars name = '.' :: t ∧ t ≠ [] ∧ ∀ c ∈ t, c ≠ '.' := by
  simp only [suffixChars, splitName]
  split
  · left; rfl
  · split
    · next h =>
      right
      refine ⟨(name.reverse.takeWhile (fun c => c ≠ '.')).reverse, rfl, ?_, ?_⟩
      · simpa using h.2
      · intro c hc
        have := List.mem_takeWhile_imp (List.mem_reverse.mp hc)
        simpa using this
    · left; rfl

theorem digit_block_cancel :
    ∀ (d1 d2 e1 e2 : List Char), (∀ c ∈ d1, c.isDigit = true) →
      (∀ c ∈ d2, c.isDigit = true) →
      (∀ c ∈ e1.head?, ¬ c.isDigit = true) → (∀ c ∈ e2.head?, ¬ c.isDigit = true) →
      d1 ++ e1 = d2 ++ e2 → d1 = d2 ∧ e1 = e2 := by
  intro d1
  induction d1 with
  | nil =>
    intro d2 e1 e2 _ hd2 he1 _ heq
    cases d2 with
    | nil => exact ⟨rfl, heq⟩
    | cons c d2' =>
      rw [List.nil_append] at heq
      exfalso
      have hhead : e1.head? = some c := by rw [heq]; rfl
      exact he1 c (by rw [hhead]; rfl) (hd2 c (List.mem_cons_self _ _))
  | cons c1 d1' ih =>
    intro d2 e1 e2 hd1 hd2 he1 he2 heq
    cases d2 with
    | nil =>
      rw [List.nil_append] at heq
      exfalso
      have hhead : e2.head? = some c1 := by rw [← heq]; rfl
      exact he2 c1 (by rw [hhead]; rfl) (hd1 c1 (List.mem_cons_self _ _))
    | cons c2 d2' =>
      rw [List.cons_append, List.cons_append] at heq
      have hc : c1 = c2 := (List.cons.injEq _ _ _ _).mp heq |>.1
      have htl : d1' ++ e1 = d2' ++ e2 := (List.cons.injEq _ _ _ _).mp heq |>.2
      obtain ⟨h1, h2⟩ := ih d2' e1 e2
        (fun x hx => hd1 x (List.mem_cons_of_mem _ hx))
        (fun x hx => hd2 x (List.mem_cons_of_mem _ hx)) he1 he2 htl
      exact ⟨by rw [hc, h1], h2⟩

/-- The lower-cased suffix starts with a non-digit character, if nonempty. -/
theorem lower_suffix_head_nondigit (s : List Char) :
    ∀ c ∈ (lowerChars (suffixChars s)).head?, ¬ c.isDigit = true := by
  rcases suffixChars_shape s with h | ⟨t, h, _, _⟩
  · rw [h]
    intro c hc
    cases hc
  · rw [h]
    intro c hc
    have hd : Char.toLower '.' = c := by
      have hh : (lowerChars ('.' :: t)).head? = some (Char.toLower '.') := rfl
      rw [hh] at hc
      simpa using hc
    rw [← hd]
    decide

theorem newName_some_data (p : String) (hp : p.data ≠ []) (i : Nat) (f : PFile) :
    newName (some p) i f =
      ⟨p.data ++ '-' :: (pad4 i ++ lowerChars (suffixChars f.name.data))⟩ := by
  rw [newName, if_neg (by simpa [List.isEmpty_iff] using hp)]

theorem newName_some_inj_index {p : String} (hp : p.data ≠ []) {i j : Nat} {f g : PFile}
    (h : newName (some p) i f = newName (some p) j g) : i = j := by
  rw [newName_some_data p hp, newName_some_data p hp] at h
  have hdata : p.data ++ '-' :: (pad4 i ++ lowerChars (suffixChars f.name.data)) =
      p.data ++ '-' :: (pad4 j ++ lowerChars (suffixChars g.name.data)) :=
    congrArg String.data h
  have h2 := List.append_cancel_left hdata
  have h3 : pad4 i ++ lowerChars (suffixChars f.name.data) =
      pad4 j ++ lowerChars (suffixChars g.name.data) :=
    ((List.cons.injEq _ _ _ _).mp h2).2
  obtain ⟨hp4, _⟩ := digit_block_cancel (pad4 i) (pad4 j) _ _
    (pad4_all_digit i) (pad4_all_digit j)
    (lower_suffix_head_nondigit _) (lower_suffix_head_nondigit _) h3
  exact pad4_inj hp4

theorem mem_enumFrom_le {α : Type} :
    ∀ (n : Nat) (l : List α) (q : Nat × α), q ∈ l.enumFrom n → n ≤ q.1 := by
  intro n l
  induction l generalizing n with
  | nil => intro q hq; cases hq
  | cons x l ih =>
    intro q hq
    rw [List.enumFrom_cons] at hq
    rcases List.mem_cons.mp hq with rfl | hmem
    · exact le_rfl
    · have := ih (n + 1) q hmem
      omega

theorem pairwise_fst_lt_enumFrom {α : Type} (n : Nat) (l : List α) :
    List.Pairwise (fun a b => a.1 < b.1) (l.enumFrom n) := by
  induction l generalizing n with
  | nil => exact List.Pairwise.nil
  | cons x l ih =>
    rw [List.enumFrom_cons]
    constructor
    · intro q hq
      have := mem_enumFrom_le (n + 1) l q hq
      show n < q.1
      omega
    · exact ih (n + 1)

theorem names_nodup_some (files : List PFile) (p : String) (hp : p.data ≠ []) :
    ((mappingList files (some p)).map Prod.snd).Nodup := by
  rw [mappingList, List.map_map]
  have h1 : (Prod.snd ∘ fun q : Nat × (PFile × Option Nat) =>
      (q.2.1, newName (some p) q.1 q.2.1)) =
      fun q : Nat × (PFile × Option Nat) => newName (some p) q.1 q.2.1 := rfl
  rw [h1]
  show List.Pairwise _ _
  refine List.Pairwise.map _ ?_ (pairwise_fst_lt_enumFrom 1 (sortedPairs files))
  intro a b hab hcontra
  exact Nat.lt_irrefl _ (newName_some_inj_index hp hcontra ▸ hab)

theorem names_nodup_none (files : List PFile) (hn : (files.map PFile.name).Nodup) :
    ((mappingList files none).map Prod.snd).Nodup := by
  rw [mappingList, List.map_map]
  have h1 : (Prod.snd ∘ fun q : Nat × (PFile × Option Nat) =>
      (q.2.1, newName none q.1 q.2.1)) =
      fun q : Nat × (PFile × Option Nat) => q.2.1.name := rfl
  rw [h1]
  have h2 : (List.enumFrom 1 (sortedPairs files)).map
        (fun q : Nat × (PFile × Option Nat) => q.2.1.name) =
      (((List.enumFrom 1 (sortedPairs files)).map Prod.snd).map Prod.fst).map
        PFile.name := by
    rw [List.map_map, List.map_map]
    rfl
  rw [h2, List.enumFrom_map_snd]
  exact (List.Perm.nodup_iff ((sortedPairs_fst_perm files).map PFile.name)).mpr hn

/-- C5 (amended). For duplicate-free input, the mapping contains every input
file exactly once and has as many entries as there are input files; with a
truthy (non-empty) prefix the output names are pairwise distinct; without a
prefix the output names are the original filenames, so they are pairwise
distinct provided the input filenames are. -/
theorem build_rename_mapping_bijection (files : List PFile) (pfx : Option String)
    (hnd : files.Nodup) :
    ((create_filename_mapping files pfx).map Prod.fst).Perm files ∧
    (create_filename_mapping files pfx).length = files.length ∧
    (∀ p : String, pfx = some p → p.data ≠ [] →
      ((create_filename_mapping files pfx).map Prod.snd).Nodup) ∧
    (pfx = none → (files.map PFile.name).Nodup →
      ((create_filename_mapping files pfx).map Prod.snd).Nodup) := by
  rw [create_filename_mapping_eq files pfx hnd]
  refine ⟨?_, ?_, ?_, ?_⟩
  · rw [mappingList_map_fst]
    exact sortedPairs_fst_perm files
  · calc (mappingList files pfx).length
        = ((mappingList files pfx).map Prod.fst).length := (List.length_map _ _).symm
      _ = ((sortedPairs files).map Prod.fst).length := by rw [mappingList_map_fst]
      _ = files.length := by
          rw [List.length_map]
          have h1 : (sortedPairs files).length =
              (files.map fun f => (f, seqKey f)).length :=
            (List.perm_insertionSort fileLE _).length_eq
          rw [h1, List.length_map]
  · intro p hpfx hp
    subst hpfx
    exact names_nodup_some files p hp
  · intro hpfx hn
    subst hpfx
    exact names_nodup_none files hn

/-- Counterexample to C5 as stated: without a prefix the mapping keeps
original filenames, so two distinct files with the same filename in
different directories receive colliding output names. -/
theorem build_rename_mapping_bijection_counterexample :
    (create_filename_mapping [⟨"a", "x.jpg"⟩, ⟨"b", "x.jpg"⟩] none).map Prod.snd =
      ["x.jpg", "x.jpg"] ∧
    ¬ ((create_filename_mapping [⟨"a", "x.jpg"⟩, ⟨"b", "x.jpg"⟩] none).map
        Prod.snd).Nodup := by
  constructor
  · decide
  · decide

/-- Witness for the amended C5 at a concrete two-file input. -/
theorem build_rename_mapping_bijection_witness :
    ((create_filename_mapping [⟨"a", "IMG_2.jpg"⟩, ⟨"a", "IMG_1.jpg"⟩]
        (some "v")).map Prod.snd).Nodup :=
  (build_rename_mapping_bijection [⟨"a", "IMG_2.jpg"⟩, ⟨"a", "IMG_1.jpg"⟩]
    (some "v") (by decide)).2.2.1 "v" rfl (by decide)

/-- C9. `build_rename_mapping` on an empty file list returns the empty
mapping (and, being a total function, signals no error). -/
theorem build_rename_mapping_empty (pfx : Option String) :
    create_filename_mapping [] pfx = [] := rfl

/-! ### Idempotence of the rename mapping -/

theorem ne_dot_of_digit {c : Char} (h : c.isDigit = true) : c ≠ '.' := by
  intro hc
  subst hc
  cases h

theorem lower_suffix_shape (s : List Char) :
    lowerChars (suffixChars s) = [] ∨
      ∃ t, lowerChars (suffixChars s) = '.' :: t ∧ t ≠ [] ∧ ∀ c ∈ t, c ≠ '.' := by
  rcases suffixChars_shape s with h | ⟨t, h, htne, htdot⟩
  · left
    rw [h]
    rfl
  · right
    refine ⟨lowerChars t, ?_, ?_, ?_⟩
    · rw [h]
      show Char.toLower '.' :: lowerChars t = '.' :: lowerChars t
      rw [show Char.toLower '.' = '.' by decide]
    · simpa [lowerChars] using htne
    · intro c hc
      rcases List.mem_map.mp hc with ⟨c0, hc0, rfl⟩
      exact toLower_ne_dot (htdot c0 hc0)

/-- Splitting a name of the form `A ++ E` where `A` is a nonempty dot-free
block and `E` is an (already well-formed) extension returns `(A, E)`. -/
theorem splitName_block_ext (A E : List Char) (hAne : A ≠ [])
    (hAdot : ∀ c ∈ A, c ≠ '.')
    (hE : E = [] ∨ ∃ t, E = '.' :: t ∧ t ≠ [] ∧ ∀ c ∈ t, c ≠ '.') :
    splitName (A ++ E) = (A, E) := by
  rcases hE with rfl | ⟨t, rfl, htne, htdot⟩
  · rw [List.append_nil]
    have hdw : A.reverse.dropWhile (fun c => c ≠ '.') = [] := by
      rw [List.dropWhile_eq_nil_iff]
      intro x hx
      simp [hAdot x (List.mem_reverse.mp hx)]
    simp only [splitName, hdw]
  · simp only [splitName]
    have hrev : (A ++ '.' :: t).reverse = t.reverse ++ '.' :: A.reverse := by
      rw [List.reverse_append, List.reverse_cons, List.append_assoc]
      rfl
    have htake : (t.reverse ++ '.' :: A.reverse).takeWhile (fun c => c ≠ '.') =
        t.reverse := by
      rw [List.takeWhile_append_of_pos
          (fun x hx => by simp [htdot x (List.mem_reverse.mp hx)]),
        List.takeWhile_cons_of_neg (by simp), List.append_nil]
    have hdrop : (t.reverse ++ '.' :: A.reverse).dropWhile (fun c => c ≠ '.') =
        '.' :: A.reverse := by
      rw [List.dropWhile_append_of_pos
          (fun x hx => by simp [htdot x (List.mem_reverse.mp hx)]),
        List.dropWhile_cons_of_neg (by simp)]
    rw [hrev, htake, hdrop]
    show (if A.reverse ≠ [] ∧ t.reverse ≠ [] then
        (A.reverse.reverse, '.' :: t.reverse.reverse)
      else (A ++ '.' :: t, [])) = (A, '.' :: t)
    rw [if_pos ⟨by simpa using hAne, by simpa using htne⟩]
    rw [List.reverse_reverse, List.reverse_reverse]

theorem newName_data_assoc (p : String) (i : Nat) (E : List Char) :
    p.data ++ '-' :: (pad4 i ++ E) = (p.data ++ '-' :: pad4 i) ++ E := by
  rw [List.append_assoc, List.cons_append]

theorem block_ne_nil (p : String) (i : Nat) : p.data ++ '-' :: pad4 i ≠ [] := by
  intro h
  cases List.append_eq_nil.mp h |>.2

theorem block_dot_free {p : String} (hdot : ∀ c ∈ p.data, c ≠ '.') (i : Nat) :
    ∀ c ∈ p.data ++ '-' :: pad4 i, c ≠ '.' := by
  intro c hc
  rcases List.mem_append.mp hc with h1 | h2
  · exact hdot c h1
  · rcases List.mem_cons.mp h2 with rfl | h3
    · decide
    · exact ne_dot_of_digit (pad4_all_digit i c h3)

/-- Re-extracting the sequence key from a generated name recovers exactly the
1-based index that produced it, provided the prefix contains no dot. -/
theorem extract_newName {p : String} (hp : p.data ≠ [])
    (hdot : ∀ c ∈ p.data, c ≠ '.') (i : Nat) (f : PFile) :
    extract_number_from_filename (newName (some p) i f) = some i := by
  rw [newName_some_data p hp]
  show (match (digitRuns (stemChars
      (p.data ++ '-' :: (pad4 i ++ lowerChars (suffixChars f.name.data))))).getLast? with
    | some run => some (digitsToNat run)
    | none => none) = some i
  rw [newName_data_assoc]
  have hstem : stemChars ((p.data ++ '-' :: pad4 i) ++
      lowerChars (suffixChars f.name.data)) = p.data ++ '-' :: pad4 i := by
    rw [stemChars, splitName_block_ext _ _ (block_ne_nil p i) (block_dot_free hdot i)
      (lower_suffix_shape f.name.data)]
  rw [hstem, digitRuns_append_nondigit (by decide) p.data (pad4 i),
    digitRuns_all_digit (pad4_ne_nil i) (pad4_all_digit i),
    List.getLast?_concat]
  show some (digitsToNat (pad4 i)) = some i
  rw [digitsToNat_pad4]

/-- The suffix of a generated name is the lower-cased original suffix. -/
theorem suffixChars_newName {p : String} (hp : p.data ≠ [])
    (hdot : ∀ c ∈ p.data, c ≠ '.') (i : Nat) (f : PFile) :
    suffixChars (newName (some p) i f).data =
      lowerChars (suffixChars f.name.data) := by
  rw [newName_some_data p hp]
  show suffixChars (p.data ++ '-' :: (pad4 i ++ lowerChars (suffixChars f.name.data))) = _
  rw [newName_data_assoc, suffixChars, splitName_block_ext _ _ (block_ne_nil p i)
    (block_dot_free hdot i) (lower_suffix_shape f.name.data)]

/-- Renaming an already-renamed file with the same index reproduces its name. -/
theorem newName_newName {p : String} (hp : p.data ≠ [])
    (hdot : ∀ c ∈ p.data, c ≠ '.') (i : Nat) (d : String) (f : PFile) :
    newName (some p) i ⟨d, newName (some p) i f⟩ = newName (some p) i f := by
  conv_rhs => rw [newName_some_data p hp]
  rw [newName_some_data p hp]
  show (⟨p.data ++ '-' :: (pad4 i ++
      lowerChars (suffixChars (newName (some p) i f).data))⟩ : String) = _
  rw [suffixChars_newName hp hdot, lowerChars_idem]

/-- C4 (amended). Applying the computed mapping (each file renamed to its
assigned name, in mapping order) and running `build_rename_mapping` again
with the same truthy prefix gives every file its existing name — provided the
input files are duplicate-free and the prefix contains no `'.'` character.
Determinism (two runs on identical input agree) holds unconditionally. -/
theorem build_rename_mapping_idempotent (files : List PFile) (p : String)
    (hnd : files.Nodup) (hp : p.data ≠ []) (hdot : ∀ c ∈ p.data, c ≠ '.') :
    (create_filename_mapping
        ((create_filename_mapping files (some p)).map fun pr =>
          PFile.mk pr.1.dir pr.2) (some p) =
      ((create_filename_mapping files (some p)).map fun pr =>
          PFile.mk pr.1.dir pr.2).map fun f => (f, f.name)) ∧
    (∀ (fs : List PFile) (q : Option String),
      create_filename_mapping fs q = create_filename_mapping fs q) := by
  refine ⟨?_, fun fs q => rfl⟩
  have hm := create_filename_mapping_eq files (some p) hnd
  have hrenamed : (create_filename_mapping files (some p)).map
      (fun pr => PFile.mk pr.1.dir pr.2) =
      (List.enumFrom 1 (sortedPairs files)).map
        (fun q => PFile.mk q.2.1.dir (newName (some p) q.1 q.2.1)) := by
    rw [hm, mappingList, List.map_map]
    rfl
  have hkeys : ((create_filename_mapping files (some p)).map
        (fun pr => PFile.mk pr.1.dir pr.2)).map (fun f => (f, seqKey f)) =
      (List.enumFrom 1 (sortedPairs files)).map
        (fun q => (PFile.mk q.2.1.dir (newName (some p) q.1 q.2.1), some q.1)) := by
    rw [hrenamed, List.map_map]
    apply List.map_congr_left
    intro q _
    show (_, seqKey (PFile.mk q.2.1.dir (newName (some p) q.1 q.2.1))) = (_, some q.1)
    rw [show seqKey (PFile.mk q.2.1.dir (newName (some p) q.1 q.2.1)) = some q.1 from
      extract_newName hp hdot q.1 q.2.1]
  have hsorted2 : List.Pairwise fileLE
      (((create_filename_mapping files (some p)).map
        (fun pr => PFile.mk pr.1.dir pr.2)).map fun f => (f, seqKey f)) := by
    rw [hkeys]
    refine List.Pairwise.map _ ?_ (pairwise_fst_lt_enumFrom 1 (sortedPairs files))
    intro a b hab
    show keyLE (some a.1) (some b.1)
    show a.1 ≤ b.1
    omega
  have hrnd : (((create_filename_mapping files (some p)).map
      (fun pr => PFile.mk pr.1.dir pr.2))).Nodup := by
    refine List.Nodup.of_map PFile.name ?_
    have hnames : ((create_filename_mapping files (some p)).map
        (fun pr => PFile.mk pr.1.dir pr.2)).map PFile.name =
        (create_filename_mapping files (some p)).map Prod.snd := by
      rw [List.map_map]
      rfl
    rw [hnames, hm]
    exact names_nodup_some files p hp
  have hsp2 : sortedPairs ((create_filename_mapping files (some p)).map
      (fun pr => PFile.mk pr.1.dir pr.2)) =
      ((create_filename_mapping files (some p)).map
        (fun pr => PFile.mk pr.1.dir pr.2)).map fun f => (f, seqKey f) := by
    rw [sortedPairs]
    exact List.Sorted.insertionSort_eq hsorted2
  rw [create_filename_mapping_eq _ (some p) hrnd, mappingList, hsp2]
  apply List.ext_getElem
  · simp
  · intro j h1 h2
    simp only [List.getElem_map, List.getElem_enumFrom]
    have hj : j < (create_filename_mapping files (some p)).length := by
      simpa using h2
    have hj' : j < (sortedPairs files).length := by
      have := hj
      rw [hm] at this
      simpa [mappingList] using this
    have hmj : (create_filename_mapping files (some p))[j] =
        (((sortedPairs files)[j]).1,
          newName (some p) (1 + j) ((sortedPairs files)[j]).1) := by
      rw [List.getElem_of_eq hm hj]
      simp only [mappingList, List.getElem_map, List.getElem_enumFrom]
    simp only [hmj]
    rw [newName_newName hp hdot]

/-- Counterexample to C4 as stated: with the prefix `"my.trip"` (which
contains a dot) and the extensionless file `README`, the first run produces
`my.trip-0001`; re-running on that result splits the name at its dot
(stem `my`, suffix `.trip-0001`), finds no digits in the stem, and produces
the different name `my.trip-0001.trip-0001`. -/
theorem build_rename_mapping_idempotent_counterexample :
    create_filename_mapping [⟨"d", "README"⟩] (some "my.trip") =
      [(⟨"d", "README"⟩, "my.trip-0001")] ∧
    create_filename_mapping [⟨"d", "my.trip-0001"⟩] (some "my.trip") =
      [(⟨"d", "my.trip-0001"⟩, "my.trip-0001.trip-0001")] :=
  ⟨by decide, by decide⟩

/-- Witness for the amended C4 at a concrete one-file input. -/
theorem build_rename_mapping_idempotent_witness :
    create_filename_mapping
        ((create_filename_mapping [⟨"d", "IMG_1.jpg"⟩] (some "trip")).map fun pr =>
          PFile.mk pr.1.dir pr.2) (some "trip") =
      ((create_filename_mapping [⟨"d", "IMG_1.jpg"⟩] (some "trip")).map fun pr =>
          PFile.mk pr.1.dir pr.2).map fun f => (f, f.name) :=
  (build_rename_mapping_idempotent [⟨"d", "IMG_1.jpg"⟩] "trip" (by decide) (by decide)
    (by decide)).1

/-! ### The temporal bucketer: dates, the anchor, and week numbers -/

/-- Python `datetime` leap-year rule. -/
def isLeapYear (y : Nat) : Bool :=
  decide (y % 4 = 0 ∧ (y % 100 ≠ 0 ∨ y % 400 = 0))

/-- Days in month `m` given whether the year is leap. -/
def daysInMonthB (leap : Bool) (m : Nat) : Nat :=
  if m = 2 then (if leap then 29 else 28)
  else if m = 4 ∨ m = 6 ∨ m = 9 ∨ m = 11 then 30
  else 31

/-- Days in month `m` (1-based) of year `y`, as `datetime` validates. -/
def daysInMonth (y m : Nat) : Nat := daysInMonthB (isLeapYear y) m

/-- Days in the months strictly before month `m` (1-based). -/
def daysBeforeMonthB (leap : Bool) (m : Nat) : Nat :=
  (List.range (m - 1)).foldl (fun a k => a + daysInMonthB leap (k + 1)) 0

def daysBeforeMonth (y m : Nat) : Nat := daysBeforeMonthB (isLeapYear y) m

/-- Days in all proleptic-Gregorian years before year `y`;
`date.toordinal()` counts `0001-01-01` as day 1. -/
def daysBeforeYear (y : Nat) : Nat :=
  let n := y - 1
  n * 365 + n / 4 - n / 100 + n / 400

/-- `datetime.date.toordinal()`. -/
def toOrdinal (y m d : Nat) : Nat := daysBeforeYear y + daysBeforeMonth y m + d

/-- A Python `datetime`: a calendar date plus a time of day. -/
structure PyDateTime where
  year : Nat
  month : Nat
  day : Nat
  hour : Nat
  minute : Nat
  second : Nat
  microsecond : Nat
deriving DecidableEq

/-- Field ranges that the `datetime` constructor enforces. -/
def PyDateTime.Valid (t : PyDateTime) : Prop :=
  1 ≤ t.year ∧ 1 ≤ t.month ∧ t.month ≤ 12 ∧ 1 ≤ t.day ∧
    t.day ≤ daysInMonth t.year t.month ∧ t.hour < 24 ∧ t.minute < 60 ∧
    t.second < 60 ∧ t.microsecond < 1000000

instance (t : PyDateTime) : Decidable t.Valid := by
  unfold PyDateTime.Valid
  infer_instance

/-- `t.date().toordinal()`. -/
def PyDateTime.dateOrdinal (t : PyDateTime) : Nat := toOrdinal t.year t.month t.day

/-- Python `datetime < datetime`: lexicographic on all seven fields. -/
def dtLt (a b : PyDateTime) : Prop :=
  a.year < b.year ∨ (a.year = b.year ∧
    (a.month < b.month ∨ (a.month = b.month ∧
      (a.day < b.day ∨ (a.day = b.day ∧
        (a.hour < b.hour ∨ (a.hour = b.hour ∧
          (a.minute < b.minute ∨ (a.minute = b.minute ∧
            (a.second < b.second ∨ (a.second = b.second ∧
              a.microsecond < b.microsecond)))))))))))

instance (a b : PyDateTime) : Decidable (dtLt a b) := by
  unfold dtLt
  infer_instance

/-- `WEEKLY_START_DATE = datetime(2024, 11, 13)` — Wednesday, Nov 13 2024. -/
def WEEKLY_START_DATE : PyDateTime := ⟨2024, 11, 13, 0, 0, 0, 0⟩

/--
```python
def calculate_week_number(date: datetime) -> int:
    days_since_start = (date.date() - WEEKLY_START_DATE.date()).days
    week_number = (days_since_start // 7) + 1
    return max(1, week_number)
```
(`//` is Python floor division, `Int.fdiv` here.) -/
def calculate_week_number (date : PyDateTime) : Int :=
  let days_since_start : Int :=
    (date.dateOrdinal : Int) - (WEEKLY_START_DATE.dateOrdinal : Int)
  let week_number := days_since_start.fdiv 7 + 1
  max 1 week_number

/-- `date.weekday()`: Monday is 0; ordinal 1 (`0001-01-01`) was a Monday. -/
def PyDateTime.weekday (t : PyDateTime) : Nat := (t.dateOrdinal + 6) % 7

/--
```python
def is_weekly_photo_day(date: datetime) -> bool:
    return date.weekday() == 2  # Wednesday = 2
```
-/
def is_weekly_photo_day (date : PyDateTime) : Bool := date.weekday == 2

example : WEEKLY_START_DATE.dateOrdinal = 739203 := by decide
example : is_weekly_photo_day WEEKLY_START_DATE = true := by decide
example : calculate_week_number ⟨2024, 11, 20, 0, 0, 0, 0⟩ = 2 := by decide

/-- C2. The week index is `floor((date − anchor)/7) + 1`, clamped below
to 1; the anchor date 2024-11-13 itself is week 1, 2024-11-19 is week 1,
2024-11-20 is week 2, and every timestamp dated before the anchor is
week 1. -/
theorem calculate_week_number_correct :
    (∀ t : PyDateTime, calculate_week_number t =
      max 1 (Int.fdiv ((t.dateOrdinal : Int) -
        (WEEKLY_START_DATE.dateOrdinal : Int)) 7 + 1)) ∧
    calculate_week_number ⟨2024, 11, 13, 0, 0, 0, 0⟩ = 1 ∧
    calculate_week_number ⟨2024, 11, 19, 23, 59, 59, 0⟩ = 1 ∧
    calculate_week_number ⟨2024, 11, 20, 0, 0, 0, 0⟩ = 2 ∧
    (∀ t : PyDateTime, t.dateOrdinal < WEEKLY_START_DATE.dateOrdinal →
      calculate_week_number t = 1) := by
  refine ⟨fun t => rfl, by decide, by decide, by decide, ?_⟩
  intro t ht
  show max 1 (Int.fdiv ((t.dateOrdinal : Int) -
    (WEEKLY_START_DATE.dateOrdinal : Int)) 7 + 1) = 1
  have hd : (t.dateOrdinal : Int) - (WEEKLY_START_DATE.dateOrdinal : Int) ≤ -1 := by
    have hcast : (t.dateOrdinal : Int) < (WEEKLY_START_DATE.dateOrdinal : Int) := by
      exact_mod_cast ht
    omega
  have hmono : Int.fdiv ((t.dateOrdinal : Int) -
      (WEEKLY_START_DATE.dateOrdinal : Int)) 7 ≤ Int.fdiv (-1) 7 := by
    rw [Int.fdiv_eq_ediv _ (by omega), Int.fdiv_eq_ediv _ (by omega)]
    exact Int.ediv_le_ediv (by omega) hd
  have hm1 : Int.fdiv (-1) 7 = -1 := by decide
  rw [max_eq_left (by omega)]

/-- Witness for C2 at a timestamp before the anchor (2024-01-01): week 1. -/
theorem calculate_week_number_correct_witness :
    calculate_week_number ⟨2024, 1, 1, 0, 0, 0, 0⟩ = 1 :=
  calculate_week_number_correct.2.2.2.2 ⟨2024, 1, 1, 0, 0, 0, 0⟩ (by decide)

/-- C10. The week index depends only on the calendar date: any two
timestamps on the same date, at any times of day, get the same week
number. -/
theorem week_number_ignores_time_of_day (y mo d h1 mi1 s1 u1 h2 mi2 s2 u2 : Nat) :
    calculate_week_number ⟨y, mo, d, h1, mi1, s1, u1⟩ =
      calculate_week_number ⟨y, mo, d, h2, mi2, s2, u2⟩ := rfl

/-! ### Monotonicity of the week index -/

set_option maxHeartbeats 1000000 in
theorem daysBeforeYear_succ (y : Nat) (hy : 1 ≤ y) :
    daysBeforeYear (y + 1) =
      daysBeforeYear y + (if isLeapYear y then 366 else 365) := by
  have hleap : (if isLeapYear y then (366 : Nat) else 365) =
      if y % 4 = 0 ∧ (y % 100 ≠ 0 ∨ y % 400 = 0) then 366 else 365 := by
    simp only [isLeapYear, decide_eq_true_eq]
  rw [hleap]
  simp only [daysBeforeYear]
  by_cases h : y % 4 = 0 ∧ (y % 100 ≠ 0 ∨ y % 400 = 0)
  · rw [if_pos h]
    omega
  · rw [if_neg h]
    omega

theorem daysBeforeYear_le_succ (n : Nat) :
    daysBeforeYear n ≤ daysBeforeYear (n + 1) := by
  simp only [daysBeforeYear]
  omega

theorem daysBeforeYear_mono {y1 y2 : Nat} (h : y1 ≤ y2) :
    daysBeforeYear y1 ≤ daysBeforeYear y2 := by
  induction y2 with
  | zero =>
    have hz : y1 = 0 := by omega
    subst hz
    exact le_rfl
  | succ y2 ih =>
    rcases Nat.lt_or_ge y1 (y2 + 1) with hlt | hge
    · exact le_trans (ih (by omega)) (daysBeforeYear_le_succ y2)
    · have : y1 = y2 + 1 := by omega
      subst this
      exact le_rfl

theorem month_day_le_year :
    ∀ (leap : Bool), ∀ m < 13, 1 ≤ m →
      daysBeforeMonthB leap m + daysInMonthB leap m ≤
        (if leap then 366 else 365) := by
  decide

theorem month_block_mono :
    ∀ (leap : Bool), ∀ m2 < 13, ∀ m1 < m2, 1 ≤ m1 →
      daysBeforeMonthB leap m1 + daysInMonthB leap m1 ≤
        daysBeforeMonthB leap m2 := by
  decide

theorem dateOrdinal_le_of_dtLt {t1 t2 : PyDateTime} (h1 : t1.Valid) (h2 : t2.Valid)
    (hlt : dtLt t1 t2) : t1.dateOrdinal ≤ t2.dateOrdinal := by
  obtain ⟨h1y, h1m1, h1m12, h1d1, h1dim, _⟩ := h1
  obtain ⟨h2y, h2m1, h2m12, h2d1, h2dim, _⟩ := h2
  rcases hlt with hy | ⟨hyeq, hm | ⟨hmeq, hrest⟩⟩
  · have hA := month_day_le_year (isLeapYear t1.year) t1.month (by omega) h1m1
    have hsucc := daysBeforeYear_succ t1.year h1y
    have hmono : daysBeforeYear (t1.year + 1) ≤ daysBeforeYear t2.year :=
      daysBeforeYear_mono (by omega)
    unfold PyDateTime.dateOrdinal toOrdinal daysBeforeMonth at *
    unfold daysInMonth at h1dim
    omega
  · have hdby : daysBeforeYear t1.year = daysBeforeYear t2.year := by rw [hyeq]
    have hleapeq : isLeapYear t1.year = isLeapYear t2.year := by rw [hyeq]
    have hB := month_block_mono (isLeapYear t2.year) t2.month (by omega)
      t1.month hm h1m1
    unfold PyDateTime.dateOrdinal toOrdinal daysBeforeMonth at *
    unfold daysInMonth at h1dim
    rw [hleapeq] at h1dim
    rw [hleapeq, hdby]
    omega
  · have hd : t1.day ≤ t2.day := by
      rcases hrest with hd | ⟨hdeq, _⟩
      · omega
      · omega
    have hdby : daysBeforeYear t1.year = daysBeforeYear t2.year := by rw [hyeq]
    have hdbm : daysBeforeMonth t1.year t1.month =
        daysBeforeMonth t2.year t2.month := by rw [hyeq, hmeq]
    unfold PyDateTime.dateOrdinal toOrdinal at *
    omega

/-- C8. The week index is monotonically non-decreasing in the timestamp:
for valid timestamps `t1 ≤ t2` (Python datetime order), the week of `t1`
is at most the week of `t2`. -/
theorem week_number_monotone {t1 t2 : PyDateTime} (h1 : t1.Valid) (h2 : t2.Valid)
    (hle : dtLt t1 t2 ∨ t1 = t2) :
    calculate_week_number t1 ≤ calculate_week_number t2 := by
  rcases hle with hlt | rfl
  · have hord := dateOrdinal_le_of_dtLt h1 h2 hlt
    show max 1 (Int.fdiv ((t1.dateOrdinal : Int) -
        (WEEKLY_START_DATE.dateOrdinal : Int)) 7 + 1) ≤
      max 1 (Int.fdiv ((t2.dateOrdinal : Int) -
        (WEEKLY_START_DATE.dateOrdinal : Int)) 7 + 1)
    have hcast : (t1.dateOrdinal : Int) ≤ (t2.dateOrdinal : Int) := by
      exact_mod_cast hord
    have hfd : Int.fdiv ((t1.dateOrdinal : Int) -
        (WEEKLY_START_DATE.dateOrdinal : Int)) 7 ≤
        Int.fdiv ((t2.dateOrdinal : Int) -
          (WEEKLY_START_DATE.dateOrdinal : Int)) 7 := by
      rw [Int.fdiv_eq_ediv _ (by omega), Int.fdiv_eq_ediv _ (by omega)]
      exact Int.ediv_le_ediv (by omega) (by omega)
    exact max_le_max le_rfl (by omega)
  · exact le_rfl

/-- Witness for C8: 2024-11-13 ≤ 2024-11-20 gives week 1 ≤ week 2. -/
theorem week_number_monotone_witness :
    calculate_week_number ⟨2024, 11, 13, 8, 0, 0, 0⟩ ≤
      calculate_week_number ⟨2024, 11, 20, 8, 0, 0, 0⟩ :=
  week_number_monotone (by decide) (by decide) (Or.inl (by decide))

/-! ### The import filter loop (`import_photos`, lines 250-277) -/

/-- State threaded through the filtering loop of `import_photos`:
the week-indexed groups (a dict, modelled as a total function that is `[]`
outside the inserted keys), the filtered file list, and the files that drew
a missing-timestamp warning. -/
structure ImportState where
  weekly_groups : Int → List PFile
  filtered_files : List PFile
  warned : List PFile

/-- `after_datetime and file_date < after_datetime`. -/
def afterReject (after : Option PyDateTime) (d : PyDateTime) : Bool :=
  match after with
  | some a => decide (dtLt d a)
  | none => false

/-- One iteration of the loop body:
```python
file_date = get_file_date(file_path)           # fd.2, resolved externally
if not file_date:
    warn; continue
if after_datetime and file_date < after_datetime:
    continue
if weekly and not is_weekly_photo_day(file_date):
    continue
filtered_files.append(file_path)
week_number = calculate_week_number(file_date)
weekly_groups.setdefault(week_number, []).append(file_path)
```
-/
def processFile (weekly : Bool) (after : Option PyDateTime)
    (st : ImportState) (fd : PFile × Option PyDateTime) : ImportState :=
  match fd.2 with
  | none => { st with warned := st.warned ++ [fd.1] }
  | some d =>
    if afterReject after d then st
    else if weekly && !is_weekly_photo_day d then st
    else
      let w := calculate_week_number d
      { weekly_groups := fun k =>
          if k = w then st.weekly_groups k ++ [fd.1] else st.weekly_groups k,
        filtered_files := st.filtered_files ++ [fd.1],
        warned := st.warned }

/-- The whole filtering loop over the discovered `(file, timestamp)` pairs. -/
def import_filter (files : List (PFile × Option PyDateTime)) (weekly : Bool)
    (after : Option PyDateTime) : ImportState :=
  files.foldl (processFile weekly after) ⟨fun _ => [], [], []⟩

/-- A file passes the filters iff its timestamp resolved, it is not strictly
before the minimum, and the weekday restriction (if active) matches. -/
def passesFilters (weekly : Bool) (after : Option PyDateTime)
    (fd : PFile × Option PyDateTime) : Bool :=
  match fd.2 with
  | none => false
  | some d => !(afterReject after d) && !(weekly && !is_weekly_photo_day d)

/-- A file belongs in bucket `w` iff it passes the filters and its
timestamp's week index is `w`. -/
def inWeek (weekly : Bool) (after : Option PyDateTime) (w : Int)
    (fd : PFile × Option PyDateTime) : Bool :=
  passesFilters weekly after fd &&
    (match fd.2 with
     | some d => calculate_week_number d == w
     | none => false)

theorem import_filter_foldl (weekly : Bool) (after : Option PyDateTime) :
    ∀ (files : List (PFile × Option PyDateTime)) (st : ImportState),
      (files.foldl (processFile weekly after) st).filtered_files =
        st.filtered_files ++
          (files.filter (passesFilters weekly after)).map Prod.fst ∧
      (files.foldl (processFile weekly after) st).warned =
        st.warned ++ (files.filter (fun fd => fd.2.isNone)).map Prod.fst ∧
      (∀ w : Int, (files.foldl (processFile weekly after) st).weekly_groups w =
        st.weekly_groups w ++
          (files.filter (inWeek weekly after w)).map Prod.fst) := by
  intro files
  induction files with
  | nil =>
    intro st
    refine ⟨by simp, by simp, fun w => by simp⟩
  | cons fd fs ih =>
    intro st
    rw [List.foldl_cons]
    obtain ⟨ih1, ih2, ih3⟩ := ih (processFile weekly after st fd)
    cases hfd : fd.2 with
    | none =>
      have hpf : processFile weekly after st fd =
          { st with warned := st.warned ++ [fd.1] } := by
        simp only [processFile, hfd]
      have hpass : passesFilters weekly after fd = false := by
        simp only [passesFilters, hfd]
      have hwk : ∀ w : Int, inWeek weekly after w fd = false := by
        intro w
        simp only [inWeek, hpass, Bool.false_and]
      refine ⟨?_, ?_, ?_⟩
      · rw [ih1, hpf, List.filter_cons_of_neg (by simp [hpass])]
      · rw [ih2, hpf, List.filter_cons_of_pos (by simp [hfd])]
        simp
      · intro w
        rw [ih3 w, hpf, List.filter_cons_of_neg (by simp [hwk w])]
    | some d =>
      by_cases hrej : afterReject after d = true
      · have hpf : processFile weekly after st fd = st := by
          simp only [processFile, hfd, hrej, if_true]
        have hpass : passesFilters weekly after fd = false := by
          simp only [passesFilters, hfd, hrej, Bool.not_true, Bool.false_and]
        have hwk : ∀ w : Int, inWeek weekly after w fd = false := by
          intro w
          simp only [inWeek, hpass, Bool.false_and]
        refine ⟨?_, ?_, ?_⟩
        · rw [ih1, hpf, List.filter_cons_of_neg (by simp [hpass])]
        · rw [ih2, hpf, List.filter_cons_of_neg (by simp [hfd])]
        · intro w
          rw [ih3 w, hpf, List.filter_cons_of_neg (by simp [hwk w])]
      · by_cases hweek : (weekly && !is_weekly_photo_day d) = true
        · have hpf : processFile weekly after st fd = st := by
            simp only [processFile, hfd, hrej, if_false, hweek, if_true,
              Bool.false_eq_true]
          have hpass : passesFilters weekly after fd = false := by
            simp only [passesFilters, hfd, hweek, Bool.not_true, Bool.and_false]
          have hwk : ∀ w : Int, inWeek weekly after w fd = false := by
            intro w
            simp only [inWeek, hpass, Bool.false_and]
          refine ⟨?_, ?_, ?_⟩
          · rw [ih1, hpf, List.filter_cons_of_neg (by simp [hpass])]
          · rw [ih2, hpf, List.filter_cons_of_neg (by simp [hfd])]
          · intro w
            rw [ih3 w, hpf, List.filter_cons_of_neg (by simp [hwk w])]
        · have hpf : processFile weekly after st fd =
              { weekly_groups := fun k =>
                  if k = calculate_week_number d then
                    st.weekly_groups k ++ [fd.1]
                  else st.weekly_groups k,
                filtered_files := st.filtered_files ++ [fd.1],
                warned := st.warned } := by
            simp only [processFile, hfd, hrej, hweek, if_false, Bool.false_eq_true]
          have hpass : passesFilters weekly after fd = true := by
            simp only [passesFilters, hfd, Bool.and_eq_true, Bool.not_eq_true']
            exact ⟨by simpa using hrej, by simpa using hweek⟩
          refine ⟨?_, ?_, ?_⟩
          · rw [ih1, hpf, List.filter_cons_of_pos (by simp [hpass])]
            simp
          · rw [ih2, hpf, List.filter_cons_of_neg (by simp [hfd])]
          · intro w
            by_cases hw : w = calculate_week_number d
            · have hinw : inWeek weekly after w fd = true := by
                simp only [inWeek, hpass, hfd, Bool.true_and, beq_iff_eq]
                omega
              rw [ih3 w, hpf, List.filter_cons_of_pos (by simp [hinw])]
              simp [hw]
            · have hinw : inWeek weekly after w fd = false := by
                simp only [inWeek, hpass, hfd, Bool.true_and, beq_eq_false_iff_ne,
                  ne_eq]
                omega
              rw [ih3 w, hpf, List.filter_cons_of_neg (by simp [hinw])]
              simp [hw]

theorem dtLt_irrefl (a : PyDateTime) : ¬ dtLt a a := by
  unfold dtLt
  omega

/-- C6. The import filtering loop: files with unresolved timestamps land in
the warning list and nowhere else; otherwise a file is excluded silently when
strictly before the minimum timestamp (the bound is inclusive: a timestamp
equal to the minimum passes) or, with the weekday restriction active, when
its weekday is not Wednesday; a file passing all filters appears in the
filtered list and in exactly its week's bucket, and every list preserves
discovery order (each is a `filter` of the input sequence). -/
theorem import_filter_correct (files : List (PFile × Option PyDateTime))
    (weekly : Bool) (after : Option PyDateTime) :
    ((import_filter files weekly after).filtered_files =
      (files.filter (passesFilters weekly after)).map Prod.fst) ∧
    ((import_filter files weekly after).warned =
      (files.filter (fun fd => fd.2.isNone)).map Prod.fst) ∧
    (∀ w : Int, (import_filter files weekly after).weekly_groups w =
      (files.filter (inWeek weekly after w)).map Prod.fst) ∧
    (∀ (f : PFile) (a : PyDateTime),
      passesFilters false (some a) (f, some a) = true) ∧
    (∀ (f : PFile) (d : PyDateTime) (after' : Option PyDateTime),
      is_weekly_photo_day d = false →
        passesFilters true after' (f, some d) = false) := by
  obtain ⟨h1, h2, h3⟩ := import_filter_foldl weekly after files ⟨fun _ => [], [], []⟩
  refine ⟨by simpa using h1, by simpa using h2, fun w => by simpa using h3 w,
    ?_, ?_⟩
  · intro f a
    simp [passesFilters, afterReject, dtLt_irrefl a]
  · intro f d after' hwd
    simp [passesFilters, hwd]

/-- Witness for C6: a Thursday (2024-11-14) is rejected by the Wednesday
weekday restriction. -/
theorem import_filter_correct_witness :
    passesFilters true none (⟨"d", "a.jpg"⟩, some ⟨2024, 11, 14, 0, 0, 0, 0⟩) =
      false :=
  (import_filter_correct [] true none).2.2.2.2 ⟨"d", "a.jpg"⟩
    ⟨2024, 11, 14, 0, 0, 0, 0⟩ none (by decide)

/-! ### The format classifier (`find_photo_files`) -/

/-- `file_path.suffix.lower()`. -/
def fileExtLower (f : PFile) : List Char := lowerChars (suffixChars f.name.data)

/-- One iteration of the classifier loop:
```python
ext = file_path.suffix.lower()
if ext in jpeg_extensions: jpeg_files.append(file_path)
elif ext in cr3_extensions: cr3_files.append(file_path)
```
-/
def classifyStep (acc : List PFile × List PFile) (f : PFile) :
    List PFile × List PFile :=
  let ext := fileExtLower f
  if ext = ".jpg".data ∨ ext = ".jpeg".data then (acc.1 ++ [f], acc.2)
  else if ext = ".cr3".data then (acc.1, acc.2 ++ [f])
  else acc

/--
```python
def find_photo_files(directory):
    jpeg_files, cr3_files = [], []
    for file_path in directory.iterdir():
        ...
    return jpeg_files, cr3_files
```
(the directory listing is supplied as the input list). -/
def find_photo_files (files : List PFile) : List PFile × List PFile :=
  files.foldl classifyStep ([], [])

def isJpegFile (f : PFile) : Bool :=
  decide (fileExtLower f = ".jpg".data ∨ fileExtLower f = ".jpeg".data)

def isCr3File (f : PFile) : Bool := decide (fileExtLower f = ".cr3".data)

/-- The implicit third category: neither JPEG nor CR3. -/
def isUnclassified (f : PFile) : Bool := !(isJpegFile f) && !(isCr3File f)

theorem jpeg_not_cr3 {f : PFile} (h : isJpegFile f = true) : isCr3File f = false := by
  rw [isJpegFile, decide_eq_true_eq] at h
  rw [isCr3File, decide_eq_false_iff_not]
  intro hc
  rcases h with h | h
  · rw [hc] at h
    exact absurd h (by decide)
  · rw [hc] at h
    exact absurd h (by decide)

theorem find_photo_files_foldl :
    ∀ (files : List PFile) (acc : List PFile × List PFile),
      files.foldl classifyStep acc =
        (acc.1 ++ files.filter isJpegFile, acc.2 ++ files.filter isCr3File) := by
  intro files
  induction files with
  | nil => intro acc; simp
  | cons f fs ih =>
    intro acc
    rw [List.foldl_cons]
    by_cases hj : fileExtLower f = ".jpg".data ∨ fileExtLower f = ".jpeg".data
    · have hjb : isJpegFile f = true := by simp [isJpegFile, hj]
      have hcb : isCr3File f = false := jpeg_not_cr3 hjb
      have hstep : classifyStep acc f = (acc.1 ++ [f], acc.2) := by
        simp only [classifyStep]
        rw [if_pos hj]
      rw [hstep, ih, List.filter_cons_of_pos (by simp [hjb]),
        List.filter_cons_of_neg (by simp [hcb])]
      simp
    · by_cases hc : fileExtLower f = ".cr3".data
      · have hjb : isJpegFile f = false := by simp [isJpegFile, hj]
        have hcb : isCr3File f = true := by simp [isCr3File, hc]
        have hstep : classifyStep acc f = (acc.1, acc.2 ++ [f]) := by
          simp only [classifyStep]
          rw [if_neg hj, if_pos hc]
        rw [hstep, ih, List.filter_cons_of_neg (by simp [hjb]),
          List.filter_cons_of_pos (by simp [hcb])]
        simp
      · have hjb : isJpegFile f = false := by simp [isJpegFile, hj]
        have hcb : isCr3File f = false := by simp [isCr3File, hc]
        have hstep : classifyStep acc f = acc := by
          simp only [classifyStep]
          rw [if_neg hj, if_neg hc]
        rw [hstep, ih, List.filter_cons_of_neg (by simp [hjb]),
          List.filter_cons_of_neg (by simp [hcb])]

theorem classify_count (files : List PFile) :
    (files.filter isJpegFile).length + (files.filter isCr3File).length +
      (files.filter isUnclassified).length = files.length := by
  induction files with
  | nil => rfl
  | cons f fs ih =>
    by_cases hj : isJpegFile f = true
    · rw [List.filter_cons_of_pos (by simp [hj]),
        List.filter_cons_of_neg (by simp [jpeg_not_cr3 hj]),
        List.filter_cons_of_neg (by simp [isUnclassified, hj])]
      simp only [List.length_cons]
      omega
    · by_cases hc : isCr3File f = true
      · rw [List.filter_cons_of_neg (by simp [hj]),
          List.filter_cons_of_pos (by simp [hc]),
          List.filter_cons_of_neg (by simp [isUnclassified, hc])]
        simp only [List.length_cons]
        omega
      · rw [List.filter_cons_of_neg (by simp [hj]),
          List.filter_cons_of_neg (by simp [hc]),
          List.filter_cons_of_pos (by simp [isUnclassified, hj, hc])]
        simp only [List.length_cons]
        omega

/-- C7. The classifier partitions the input by case-insensitive extension:
the two returned lists are the JPEG- and CR3-extension files in input order,
each input file lands in exactly one of JPEG / CR3 / unclassified (pairwise
disjoint categories), the three sizes sum to the input size, and the
category depends only on the lower-cased extension, so changing an
extension's letter case never changes it. -/
theorem classify_by_format_partition (files : List PFile) :
    (find_photo_files files).1 = files.filter isJpegFile ∧
    (find_photo_files files).2 = files.filter isCr3File ∧
    ((find_photo_files files).1.length + (find_photo_files files).2.length +
      (files.filter isUnclassified).length = files.length) ∧
    (∀ f ∈ files, f ∈ (find_photo_files files).1 ∨
      f ∈ (find_photo_files files).2 ∨ f ∈ files.filter isUnclassified) ∧
    (∀ f : PFile, ¬ (f ∈ (find_photo_files files).1 ∧
      f ∈ (find_photo_files files).2)) ∧
    (∀ f : PFile, ¬ (f ∈ (find_photo_files files).1 ∧
      f ∈ files.filter isUnclassified)) ∧
    (∀ f : PFile, ¬ (f ∈ (find_photo_files files).2 ∧
      f ∈ files.filter isUnclassified)) ∧
    (∀ f g : PFile, fileExtLower f = fileExtLower g →
      isJpegFile f = isJpegFile g ∧ isCr3File f = isCr3File g ∧
        isUnclassified f = isUnclassified g) := by
  have hff : find_photo_files files =
      (files.filter isJpegFile, files.filter isCr3File) := by
    rw [find_photo_files, find_photo_files_foldl files ([], [])]
    simp
  rw [hff]
  refine ⟨rfl, rfl, classify_count files, ?_, ?_, ?_, ?_, ?_⟩
  · intro f hf
    by_cases hj : isJpegFile f = true
    · exact Or.inl (List.mem_filter.mpr ⟨hf, hj⟩)
    · by_cases hc : isCr3File f = true
      · exact Or.inr (Or.inl (List.mem_filter.mpr ⟨hf, hc⟩))
      · refine Or.inr (Or.inr (List.mem_filter.mpr ⟨hf, ?_⟩))
        simp [isUnclassified, hj, hc]
  · intro f ⟨hf1, hf2⟩
    have h1 := (List.mem_filter.mp hf1).2
    have h2 := (List.mem_filter.mp hf2).2
    rw [jpeg_not_cr3 h1] at h2
    cases h2
  · intro f ⟨hf1, hf2⟩
    have h1 := (List.mem_filter.mp hf1).2
    have h2 := (List.mem_filter.mp hf2).2
    rw [isUnclassified, h1] at h2
    cases h2
  · intro f ⟨hf1, hf2⟩
    have h1 := (List.mem_filter.mp hf1).2
    have h2 := (List.mem_filter.mp hf2).2
    rw [isUnclassified, h1] at h2
    simp at h2
  · intro f g hfg
    refine ⟨?_, ?_, ?_⟩
    · rw [isJpegFile, isJpegFile, hfg]
    · rw [isCr3File, isCr3File, hfg]
    · rw [isUnclassified, isUnclassified, isJpegFile, isJpegFile,
        isCr3File, isCr3File, hfg]

/-- Witness for C7: `.JPG` and `.jpg` classify identically, checked via the
case-insensitivity conjunct at two concrete files. -/
theorem classify_by_format_partition_witness :
    isJpegFile ⟨"d", "a.JPG"⟩ = isJpegFile ⟨"d", "b.jpg"⟩ ∧
    isCr3File ⟨"d", "a.JPG"⟩ = isCr3File ⟨"d", "b.jpg"⟩ ∧
    isUnclassified ⟨"d", "a.JPG"⟩ = isUnclassified ⟨"d", "b.jpg"⟩ :=
  (classify_by_format_partition []).2.2.2.2.2.2.2 ⟨"d", "a.JPG"⟩ ⟨"d", "b.jpg"⟩
    (by decide)
